import Mathlib

/-!
Verification development for the obsidian-mcp server runtime
(`src/server.ts`: the `ObsidianServer` class, its HTTP request router,
and the CLI entry point `main`).  The TypeScript source is shallowly
embedded: JavaScript `Map` objects become insertion-ordered association
lists, thrown errors become explicit outcome values, and the external
checks imported from `utils/security.ts` / `utils/path.ts` are either
abstracted as oracle parameters (when a claim only concerns the calling
code's control flow) or modelled from the specification (when the claim
is decided by the missing module itself).
-/

/-! ## JavaScript `Map` model

A `Map<string, α>` is an insertion-ordered association list.  `Map.set`
replaces the value in place when the key is present (keeping the original
insertion position) and appends a fresh entry otherwise; `Map.get`
returns the value at the key when present. -/

def mapSet {α : Type} : List (String × α) → String → α → List (String × α)
  | [], k, v => [(k, v)]
  | p :: rest, k, v => if p.1 = k then (k, v) :: rest else p :: mapSet rest k v

def mapGet {α : Type} : List (String × α) → String → Option α
  | [], _ => none
  | p :: rest, k => if p.1 = k then some p.2 else mapGet rest k

def mapKeys {α : Type} (m : List (String × α)) : List String := m.map (·.1)

theorem mapKeys_cons {α : Type} (p : String × α) (m : List (String × α)) :
    mapKeys (p :: m) = p.1 :: mapKeys m := rfl

theorem mapKeys_mapSet {α : Type} (m : List (String × α)) (k : String) (v : α) :
    mapKeys (mapSet m k v) = if k ∈ mapKeys m then mapKeys m else mapKeys m ++ [k] := by
  induction m with
  | nil => simp [mapSet, mapKeys]
  | cons p rest ih =>
    by_cases h : p.1 = k
    · subst h; simp [mapSet, mapKeys_cons, List.mem_cons]
    · have hne : ¬ k = p.1 := fun hkp => h hkp.symm
      have hcons : mapSet (p :: rest) k v = p :: mapSet rest k v := by
        simp [mapSet, h]
      rw [hcons, mapKeys_cons, ih, mapKeys_cons]
      by_cases hk : k ∈ mapKeys rest
      · rw [if_pos hk, if_pos (List.mem_cons_of_mem _ hk)]
      · rw [if_neg hk, if_neg (by simp [List.mem_cons, hne, hk]), List.cons_append]

theorem mapGet_mapSet_self {α : Type} (m : List (String × α)) (k : String) (v : α) :
    mapGet (mapSet m k v) k = some v := by
  induction m with
  | nil => simp [mapSet, mapGet]
  | cons p rest ih =>
    by_cases h : p.1 = k
    · subst h; simp [mapSet, mapGet]
    · simp [mapSet, h, mapGet, ih]

/-! ## Tool registry (`src/server.ts`, `ObsidianServer`)

A tool descriptor carries a name, a description and a JSON schema that is
surfaced verbatim to clients; the handler function is represented by an
opaque identifier so that replacement of one handler by another is
observable in the model. -/

structure Tool where
  name : String
  description : String
  jsonSchema : String
  handlerId : Nat
deriving DecidableEq, Repr

/-- Translation of `ObsidianServer.registerTool` (src/server.ts lines
122–126): the body is exactly `this.tools.set(tool.name, tool)` plus
logging; there is no duplicate check and no failure path. -/
def registerTool (tools : List (String × Tool)) (t : Tool) : List (String × Tool) :=
  mapSet tools t.name t

structure ToolInfo where
  name : String
  description : String
  inputSchema : String
deriving DecidableEq, Repr

/-- Translation of the `ListToolsRequestSchema` handler (src/server.ts
lines 173–182): map over the registry values, exposing name, description
and the schema verbatim. -/
def listTools (tools : List (String × Tool)) : List ToolInfo :=
  tools.map (fun p => ⟨p.2.name, p.2.description, p.2.jsonSchema⟩)

/-- Well-formedness of the registry: keys are distinct and each entry is
stored under its own tool name (which `registerTool` guarantees). -/
def WFRegistry (m : List (String × Tool)) : Prop :=
  (mapKeys m).Nodup ∧ ∀ p ∈ m, p.1 = p.2.name

theorem mapSet_mem_name (m : List (String × Tool)) (t : Tool)
    (hm : ∀ p ∈ m, p.1 = p.2.name) :
    ∀ p ∈ mapSet m t.name t, p.1 = p.2.name := by
  induction m with
  | nil => intro p hp; simp [mapSet] at hp; subst hp; rfl
  | cons q rest ih =>
    intro p hp
    by_cases h : q.1 = t.name
    · simp only [mapSet, if_pos h, List.mem_cons] at hp
      rcases hp with hp | hp
      · subst hp; rfl
      · exact hm p (List.mem_cons_of_mem _ hp)
    · simp only [mapSet, if_neg h, List.mem_cons] at hp
      rcases hp with hp | hp
      · rw [hp]; exact hm q (List.mem_cons_self _ _)
      · exact ih (fun r hr => hm r (List.mem_cons_of_mem _ hr)) p hp

/-! ## HTTP request router (`ObsidianServer.start`, src/server.ts lines 296–319)

The `http.createServer` callback compares the request's URL pathname with
the configured endpoint path for strict equality, answers 404 on any
mismatch, answers an `OPTIONS` preflight with 204, and hands every other
request on the exact path to the streamable transport. -/

inductive HttpOutcome
  | notFound
  | preflight
  | transport
deriving DecidableEq, Repr

def routeRequest (configPath : String) (pathname : String) (method : String) : HttpOutcome :=
  if pathname ≠ configPath then .notFound
  else if method = "OPTIONS" then .preflight
  else .transport

/-! ## Admission control (`ObsidianServer.validateRequest`, src/server.ts lines 128–144)

The body runs `validateMessageSize(request)`, then
`this.connectionMonitor.updateActivity()`, then
`this.rateLimiter.checkLimit(request.method)`, throwing on a size or rate
failure.  The two checks live in `utils/security.ts` and are abstracted
as boolean oracles (`sizeOk`, `rateOk`); the claims under proof only
concern the order and short-circuiting of `validateRequest` itself. -/

structure ConnectionMonitor where
  lastActivity : Nat
deriving DecidableEq, Repr

inductive AdmissionOutcome
  | ok
  | messageTooLarge
  | rateLimitExceeded
deriving DecidableEq, Repr

inductive AdmissionStep
  | sizeCheck
  | activityUpdate
  | rateCheck
deriving DecidableEq, Repr

def validateRequest (sizeOk rateOk : Bool) (now : Nat) (mon : ConnectionMonitor) :
    AdmissionOutcome × ConnectionMonitor × List AdmissionStep :=
  if !sizeOk then
    (.messageTooLarge, mon, [.sizeCheck])
  else
    let mon' : ConnectionMonitor := { lastActivity := now }
    if !rateOk then
      (.rateLimitExceeded, mon', [.sizeCheck, .activityUpdate, .rateCheck])
    else
      (.ok, mon', [.sizeCheck, .activityUpdate, .rateCheck])

/-! ## CLI vault-argument stage (`main`, src/server.ts of the entry point)

The entry point first normalizes and validates every vault path argument
(`await Promise.all(vaultArgs.map(...))`, lines 884–1089: home expansion,
absoluteness, suspicious/local checks, filesystem and `.obsidian`
checks), exiting with that path's error if one fails, and only then
compares `vaultArgs.length` with `MAX_VAULTS` (lines 1092–1109).  The
per-path outcome is abstracted as an oracle `ok`; the trace records that
validation work ran. -/

def MAX_VAULTS : Nat := 10

inductive CliEvent
  | validateVault (p : String)
  | maxVaultsCheck
deriving DecidableEq, Repr

inductive CliOutcome
  | vaultError (p : String)
  | tooManyVaults
  | proceed (paths : List String)
deriving DecidableEq, Repr

def runVaultStage (ok : String → Bool) (vaultArgs : List String) :
    CliOutcome × List CliEvent :=
  let events := vaultArgs.map CliEvent.validateVault
  match vaultArgs.find? (fun p => !(ok p)) with
  | some p => (.vaultError p, events)
  | none =>
    if vaultArgs.length > MAX_VAULTS then
      (.tooManyVaults, events ++ [.maxVaultsCheck])
    else
      (.proceed vaultArgs, events ++ [.maxVaultsCheck])

/-! ## Theorems for the registry, router, admission and CLI claims -/

def toolFirst : Tool := ⟨"echo", "first registration", "schemaA", 1⟩

def toolSecond : Tool := ⟨"echo", "second registration", "schemaB", 2⟩

/-- C1 counterexample: registering a second tool under the name `echo`
does not fail — `registerTool` is total and silently replaces the
previously registered descriptor and handler (map assignment semantics,
src/server.ts line 124). -/
theorem registerTool_duplicate_overwrites :
    registerTool (registerTool [] toolFirst) toolSecond = [("echo", toolSecond)] ∧
    mapGet (registerTool (registerTool [] toolFirst) toolSecond) "echo" = some toolSecond ∧
    toolSecond ≠ toolFirst := by
  refine ⟨rfl, rfl, ?_⟩
  decide

/-- C1 (amended): `registerTool` performs no duplicate check; a second
registration under an existing name silently replaces the stored
descriptor and handler (last write wins).  `listTools()` still never
reports the same name twice, because the registry is a name-keyed map
whose `set` replaces in place. -/
theorem registerTool_overwrite_listTools_nodup
    (m : List (String × Tool)) (t : Tool) (h : WFRegistry m) :
    WFRegistry (registerTool m t) ∧
    mapGet (registerTool m t) t.name = some t ∧
    ((listTools (registerTool m t)).map ToolInfo.name).Nodup := by
  obtain ⟨hnd, hname⟩ := h
  have hwf : WFRegistry (registerTool m t) := by
    constructor
    · rw [registerTool, mapKeys_mapSet]
      by_cases hk : t.name ∈ mapKeys m
      · simpa [hk] using hnd
      · simp only [hk, if_neg, ite_false]
        exact List.Nodup.append hnd (List.nodup_singleton _)
          (by simpa [List.disjoint_singleton] using hk)
    · exact mapSet_mem_name m t hname
  refine ⟨hwf, mapGet_mapSet_self m t.name t, ?_⟩
  have hmap : (listTools (registerTool m t)).map ToolInfo.name
      = mapKeys (registerTool m t) := by
    unfold listTools mapKeys
    rw [List.map_map]
    refine List.map_congr_left (fun p hp => ?_)
    simp only [Function.comp_apply]
    exact (hwf.2 p hp).symm
  rw [hmap]
  exact hwf.1

/-- C1 witness. -/
theorem registerTool_overwrite_witness :
    mapGet (registerTool [("echo", toolFirst)] toolSecond) "echo" = some toolSecond :=
  (registerTool_overwrite_listTools_nodup [("echo", toolFirst)] toolSecond
    ⟨by decide, by decide⟩).2.1

/-- C3: with configured path `/mcp`, the router answers 404 to
`/mcp/mcp` (a repeated trailing copy of the leading segment) although it
accepts the exact path `/mcp`; the repository's own test
"handles repeated base path segments for reverse proxy deployments"
requires `/mcp/mcp` to be served. -/
theorem routeRequest_rejects_repeated_segment :
    routeRequest "/mcp" "/mcp/mcp" "POST" = .notFound ∧
    routeRequest "/mcp" "/mcp/mcp/mcp" "POST" = .notFound ∧
    routeRequest "/mcp" "/mcp" "POST" = .transport := by
  refine ⟨?_, ?_, ?_⟩ <;> decide

/-- C4: the request handler in `ObsidianServer.start` contains no
`list_actions` route: a `POST` to the legacy discovery sub-path
`/mcp/list_actions` falls into the strict pathname comparison and is
answered 404, although the repository's own test
"serves list_actions alongside MCP requests" requires it to answer 200
with the legacy `actions`/`id`/`parameters` fields. -/
theorem routeRequest_no_list_actions :
    routeRequest "/mcp" "/mcp/list_actions" "POST" = .notFound := by
  decide

/-- C8: admission control performs the size guard, then the activity
update, then the rate check, in exactly that order; a size failure
short-circuits before the activity update and the rate check, a rate
failure produces the rate-limit error, and each step runs at most once
(no retry). -/
theorem validateRequest_order (sizeOk rateOk : Bool) (now : Nat) (mon : ConnectionMonitor) :
    (sizeOk = false → (validateRequest sizeOk rateOk now mon).2.2 = [.sizeCheck] ∧
      (validateRequest sizeOk rateOk now mon).1 = .messageTooLarge) ∧
    (sizeOk = true → (validateRequest sizeOk rateOk now mon).2.2
      = [.sizeCheck, .activityUpdate, .rateCheck]) ∧
    ((validateRequest sizeOk rateOk now mon).1 = .rateLimitExceeded
      ↔ sizeOk = true ∧ rateOk = false) ∧
    ((validateRequest sizeOk rateOk now mon).1 = .ok ↔ sizeOk = true ∧ rateOk = true) ∧
    ((validateRequest sizeOk rateOk now mon).2.2).Nodup := by
  cases sizeOk <;> cases rateOk <;> simp [validateRequest]

/-- C8 witness. -/
theorem validateRequest_order_witness :
    (validateRequest false true 7 ⟨0⟩).2.2 = [.sizeCheck] ∧
    (validateRequest true false 7 ⟨0⟩).1 = .rateLimitExceeded := by
  exact ⟨((validateRequest_order false true 7 ⟨0⟩).1 rfl).1,
    ((validateRequest_order true false 7 ⟨0⟩).2.2.1).mpr ⟨rfl, rfl⟩⟩

/-- C10: when the size guard passes, the activity clock is updated to the
current instant even when the rate limiter subsequently rejects the
request; when the size guard fails, the monitor state is untouched and no
activity update step runs. -/
theorem validateRequest_activity (sizeOk rateOk : Bool) (now : Nat) (mon : ConnectionMonitor) :
    (sizeOk = false → (validateRequest sizeOk rateOk now mon).2.1 = mon ∧
      AdmissionStep.activityUpdate ∉ (validateRequest sizeOk rateOk now mon).2.2) ∧
    (sizeOk = true → (validateRequest sizeOk rateOk now mon).2.1.lastActivity = now) := by
  cases sizeOk <;> cases rateOk <;> simp [validateRequest]

/-- C10 witness: the size guard passes, the rate limiter rejects, and the
clock is nevertheless updated; with a failing size guard the monitor is
unchanged. -/
theorem validateRequest_activity_witness :
    (validateRequest true false 42 ⟨0⟩).2.1.lastActivity = 42 ∧
    (validateRequest false true 42 ⟨5⟩).2.1 = ⟨5⟩ :=
  ⟨(validateRequest_activity true false 42 ⟨0⟩).2 rfl,
    ((validateRequest_activity false true 42 ⟨5⟩).1 rfl).1⟩

def elevenArgs : List String :=
  ["v1", "v2", "v3", "v4", "v5", "v6", "v7", "v8", "v9", "v10", "v11"]

/-- C2 counterexample: with eleven vault arguments that all pass
validation, `main` does reject the invocation with the too-many-vaults
error, but only after the per-vault validation work has run on all
eleven paths — the `MAX_VAULTS` comparison (src lines 1092–1109) follows
the `Promise.all` validation pass (src lines 884–1089), so the trace
shows eleven validation events before the cap check. -/
theorem runVaultStage_validates_before_cap :
    runVaultStage (fun _ => true) elevenArgs
      = (.tooManyVaults, elevenArgs.map CliEvent.validateVault ++ [.maxVaultsCheck]) ∧
    (elevenArgs.map CliEvent.validateVault).length = 11 := by
  exact ⟨rfl, rfl⟩

/-- C2 (amended): an invocation with more than `MAX_VAULTS` vault
arguments is rejected with the too-many-vaults error, but only after
per-vault validation has run on every supplied path; a path that fails
validation instead terminates the process with that path's own error
before the cap is ever consulted. -/
theorem runVaultStage_cap_after_validation (ok : String → Bool) (args : List String)
    (hlen : args.length > MAX_VAULTS) (hok : ∀ p ∈ args, ok p = true) :
    runVaultStage ok args
      = (.tooManyVaults, args.map CliEvent.validateVault ++ [.maxVaultsCheck]) := by
  have hfind : args.find? (fun p => !(ok p)) = none := by
    rw [List.find?_eq_none]
    intro p hp
    simp [hok p hp]
  simp [runVaultStage, hfind, hlen]

/-- C2 witness. -/
theorem runVaultStage_cap_after_validation_witness :
    runVaultStage (fun _ => true) elevenArgs
      = (.tooManyVaults, elevenArgs.map CliEvent.validateVault ++ [.maxVaultsCheck]) :=
  runVaultStage_cap_after_validation (fun _ => true) elevenArgs (by decide)
    (fun p _ => rfl)

/-! ## Call-tool dispatch (`CallToolRequestSchema` handler, src/server.ts lines 211–270)

The handler resolves the tool, then inside one `try` block runs
`tool.inputSchema.parse(args)` followed by `tool.handler(validatedArgs)`.
The `catch` block distinguishes three error classes: a `z.ZodError`
becomes an `InvalidParams` error whose message joins every issue as
`path: message` lines; an `McpError` is rethrown unchanged; anything else
becomes an `InternalError` with message
`Tool execution failed: <original message>`. -/

structure ZodIssue where
  fieldPath : List String
  message : String
deriving DecidableEq, Repr

inductive ErrCode
  | invalidRequest
  | invalidParams
  | methodNotFound
  | internalError
deriving DecidableEq, Repr

inductive JsError
  | zod (issues : List ZodIssue)
  | mcp (code : ErrCode) (msg : String)
  | other (msg : String)
deriving DecidableEq, Repr

/-- Translation of the per-issue formatting
`e.path.join(".")` and `` `${path ? path + ': ' : ''}${message}` ``. -/
def formatZodIssue (e : ZodIssue) : String :=
  let p := String.intercalate "." e.fieldPath
  (if p = "" then "" else p ++ ": ") ++ e.message

def formatZodErrors (issues : List ZodIssue) : String :=
  String.intercalate "\n" (issues.map formatZodIssue)

structure ContentItem where
  type : String
  text : String
deriving DecidableEq, Repr

structure ToolExec (A R : Type) where
  parse : A → Except JsError R
  handler : R → Except JsError (List ContentItem)

inductive CallOutcome
  | success (toolName : String) (content : List ContentItem)
  | failure (code : ErrCode) (msg : String)
deriving DecidableEq, Repr

/-- Translation of the `catch` block. -/
def wrapCaught : JsError → ErrCode × String
  | .zod issues => (.invalidParams, "Invalid arguments:\n" ++ formatZodErrors issues)
  | .mcp c m => (c, m)
  | .other m => (.internalError, "Tool execution failed: " ++ m)

/-- Translation of the `try` body and its `catch`; the second component
counts how many times the handler ran. -/
def callTool {A R : Type} (name : String) (t : ToolExec A R) (args : A) :
    CallOutcome × Nat :=
  match t.parse args with
  | .error e => (.failure (wrapCaught e).1 (wrapCaught e).2, 0)
  | .ok v =>
    match t.handler v with
    | .ok content => (.success name content, 1)
    | .error e => (.failure (wrapCaught e).1 (wrapCaught e).2, 1)

/-- C6: when schema validation fails, the handler never runs (invocation
count zero), the call fails with `InvalidParams`, and the message is the
single multi-line string that lists every violated field as a
`path: message` line — never a partial success. -/
theorem callTool_validation_failure {A R : Type} (name : String) (t : ToolExec A R)
    (args : A) (issues : List ZodIssue)
    (hparse : t.parse args = .error (.zod issues)) :
    callTool name t args
      = (.failure .invalidParams
          ("Invalid arguments:\n"
            ++ String.intercalate "\n" (issues.map formatZodIssue)), 0) := by
  simp [callTool, hparse, wrapCaught, formatZodErrors]

def zodFailTool : ToolExec Unit Unit where
  parse := fun _ => .error (.zod [⟨["message"], "Required"⟩, ⟨[], "bad shape"⟩])
  handler := fun _ => .ok [⟨"text", "never reached"⟩]

/-- C6 witness. -/
theorem callTool_validation_failure_witness :
    callTool "echo" zodFailTool ()
      = (.failure .invalidParams "Invalid arguments:\nmessage: Required\nbad shape", 0) :=
  callTool_validation_failure "echo" zodFailTool ()
    [⟨["message"], "Required"⟩, ⟨[], "bad shape"⟩] rfl

def zodThrowingHandlerTool : ToolExec Unit Unit where
  parse := fun _ => .ok ()
  handler := fun _ => .error (.zod [⟨["message"], "boom"⟩])

/-- C7 counterexample: a handler that throws a (non-`McpError`)
`ZodError` is not wrapped into `InternalError`: the shared `catch` block
matches `z.ZodError` first and converts it to `InvalidParams`, so the
claim's "every non-McpError handler error becomes InternalError" fails at
this input. -/
theorem callTool_handler_zod_not_internal :
    (callTool "echo" zodThrowingHandlerTool ()).1
      = .failure .invalidParams "Invalid arguments:\nmessage: boom" ∧
    ErrCode.invalidParams ≠ ErrCode.internalError := by
  exact ⟨rfl, by decide⟩

/-- C7 (amended): a handler failure is wrapped into `InternalError` with
message `Tool execution failed: <original>` (the original text is
preserved) unless the handler raised an `McpError`, which passes through
with code and message unchanged, or a `ZodError`, which is converted to
an `InvalidParams` error carrying the formatted issue list; in every case
the call reports a failure — handler errors are never swallowed. -/
theorem callTool_handler_error_wrapping {A R : Type} (name : String) (t : ToolExec A R)
    (args : A) (v : R) (hparse : t.parse args = .ok v) :
    (∀ m, t.handler v = .error (.other m) →
      callTool name t args = (.failure .internalError ("Tool execution failed: " ++ m), 1)) ∧
    (∀ c m, t.handler v = .error (.mcp c m) →
      callTool name t args = (.failure c m, 1)) ∧
    (∀ issues, t.handler v = .error (.zod issues) →
      callTool name t args
        = (.failure .invalidParams ("Invalid arguments:\n" ++ formatZodErrors issues), 1)) ∧
    (∀ e, t.handler v = .error e → ∃ c m, (callTool name t args).1 = .failure c m) := by
  refine ⟨?_, ?_, ?_, ?_⟩
  · intro m hh; simp [callTool, hparse, hh, wrapCaught]
  · intro c m hh; simp [callTool, hparse, hh, wrapCaught]
  · intro issues hh; simp [callTool, hparse, hh, wrapCaught]
  · intro e hh
    exact ⟨(wrapCaught e).1, (wrapCaught e).2, by simp [callTool, hparse, hh]⟩

def crashingHandlerTool : ToolExec Unit Unit where
  parse := fun _ => .ok ()
  handler := fun _ => .error (.other "disk on fire")

/-- C7 witness. -/
theorem callTool_handler_error_wrapping_witness :
    callTool "echo" crashingHandlerTool ()
      = (.failure .internalError "Tool execution failed: disk on fire", 1) :=
  (callTool_handler_error_wrapping "echo" crashingHandlerTool () () rfl).1
    "disk on fire" rfl

/-! ## Vault path validation pipeline (`main`, src lines 884–1152)

For each vault argument `main` resolves the path and checks, in reported
order: absoluteness of the resolved path (`path.isAbsolute`, the format
check), the local-filesystem check (`checkLocalPath` result reported
first), the suspicious-location check (`checkSuspiciousPath` result
reported second), then the filesystem checks (directory, permissions,
`.obsidian` marker).  Only after every argument has passed does `main`
call `checkPathOverlap` on the full set of resolved paths.  The
individual checks live in `utils/path.ts`, which is not part of the
sources; their outcomes are oracle fields here, while the overlap
predicate itself is modelled from the specification below. -/

structure PathCheckOutcome where
  formatOk : Bool
  localIssue : Option String
  suspiciousIssue : Option String
  fsOk : Bool
deriving DecidableEq, Repr

inductive PathFailure
  | notAbsolute
  | notLocal (reason : String)
  | suspicious (reason : String)
  | fsIssue
deriving DecidableEq, Repr

/-- Translation of the per-path branch structure of `main` (src lines
897–1073): absoluteness exit first, then the local-filesystem issue,
then the suspicious-location issue, then the filesystem checks. -/
def checkOnePath (c : PathCheckOutcome) : Option PathFailure :=
  if !c.formatOk then some .notAbsolute
  else
    match c.localIssue with
    | some r => some (.notLocal r)
    | none =>
      match c.suspiciousIssue with
      | some r => some (.suspicious r)
      | none => if !c.fsOk then some .fsIssue else none

def firstFailure : List PathCheckOutcome → Option PathFailure
  | [] => none
  | c :: rest =>
    match checkOnePath c with
    | some f => some f
    | none => firstFailure rest

/-- Modelled from the spec: `checkPathOverlap` is imported from
`src/utils/path.ts`, which is not among the sources.  Per the
specification, the overlap check rejects "if any two resolved paths are
equal or one is a path-prefix of another (directory containment in
either direction)".  A resolved absolute path is represented by its list
of directory segments, so containment-or-equality is list-prefixing. -/
def pathsOverlap (a b : List String) : Bool :=
  a.isPrefixOf b || b.isPrefixOf a

def checkPathOverlap : List (List String) → Bool
  | [] => false
  | p :: rest => rest.any (fun q => pathsOverlap p q) || checkPathOverlap rest

inductive VaultsOutcome
  | pathError (f : PathFailure)
  | overlapError
  | allValid
deriving DecidableEq, Repr

/-- Translation of the pipeline shape of `main`: a failing path exits
with that path's error; the overlap check runs only on the fully
validated set (src lines 1135–1152). -/
def validateVaults (cs : List PathCheckOutcome) (resolved : List (List String)) :
    VaultsOutcome :=
  match firstFailure cs with
  | some f => .pathError f
  | none => if checkPathOverlap resolved then .overlapError else .allValid

/-- Spec-side overlap relation: one path equals the other or is an
ancestor or descendant of it (segment-list containment). -/
def Overlaps (a b : List String) : Prop :=
  (∃ t, b = a ++ t) ∨ (∃ t, a = b ++ t)

theorem isPrefixOf_iff_append (a b : List String) :
    a.isPrefixOf b = true ↔ ∃ t, b = a ++ t := by
  induction a generalizing b with
  | nil => simp [List.isPrefixOf]
  | cons x as ih =>
    cases b with
    | nil =>
      simp [List.isPrefixOf]
    | cons y bs =>
      simp only [List.isPrefixOf, Bool.and_eq_true, beq_iff_eq, ih, List.cons_append]
      constructor
      · rintro ⟨rfl, t, rfl⟩
        exact ⟨t, rfl⟩
      · rintro ⟨t, ht⟩
        injection ht with h1 h2
        exact ⟨h1.symm, t, h2⟩

theorem pathsOverlap_iff (a b : List String) :
    pathsOverlap a b = true ↔ Overlaps a b := by
  unfold pathsOverlap Overlaps
  rw [Bool.or_eq_true, isPrefixOf_iff_append, isPrefixOf_iff_append]

theorem checkPathOverlap_eq_false_iff (l : List (List String)) :
    checkPathOverlap l = false ↔ l.Pairwise (fun a b => ¬ Overlaps a b) := by
  induction l with
  | nil => simp [checkPathOverlap]
  | cons p rest ih =>
    simp only [checkPathOverlap, Bool.or_eq_false_iff, List.pairwise_cons, ih]
    constructor
    · rintro ⟨hany, hrest⟩
      refine ⟨fun q hq hover => ?_, hrest⟩
      have : rest.any (fun q => pathsOverlap p q) = true :=
        List.any_eq_true.mpr ⟨q, hq, (pathsOverlap_iff p q).mpr hover⟩
      rw [hany] at this
      exact Bool.false_ne_true this
    · rintro ⟨hall, hrest⟩
      refine ⟨?_, hrest⟩
      by_contra hne
      have : rest.any (fun q => pathsOverlap p q) = true := by
        cases hx : rest.any (fun q => pathsOverlap p q) with
        | false => exact absurd hx hne
        | true => rfl
      obtain ⟨q, hq, hover⟩ := List.any_eq_true.mp this
      exact hall q hq ((pathsOverlap_iff p q).mp hover)

theorem firstFailure_eq_none_iff (cs : List PathCheckOutcome) :
    firstFailure cs = none ↔ ∀ c ∈ cs, checkOnePath c = none := by
  induction cs with
  | nil => simp [firstFailure]
  | cons c rest ih =>
    cases hc : checkOnePath c with
    | some f => simp [firstFailure, hc]
    | none => simp [firstFailure, hc, ih]

/-- C5: per-path checks are reported in the order format, then
local-filesystem, then suspicious-location (earlier failures take
precedence); the overlap check produces a rejection only when every
individual path has passed its own checks; and on a fully valid set the
pipeline rejects with the overlap error iff some pair of resolved paths
is equal or in an ancestor/descendant relation. -/
theorem vaultValidation_order_and_overlap
    (c : PathCheckOutcome) (cs : List PathCheckOutcome) (resolved : List (List String)) :
    (c.formatOk = false → checkOnePath c = some .notAbsolute) ∧
    (∀ r, c.formatOk = true → c.localIssue = some r →
      checkOnePath c = some (.notLocal r)) ∧
    (∀ r, c.formatOk = true → c.localIssue = none → c.suspiciousIssue = some r →
      checkOnePath c = some (.suspicious r)) ∧
    (validateVaults cs resolved = .overlapError → ∀ d ∈ cs, checkOnePath d = none) ∧
    (validateVaults cs resolved = .overlapError ↔
      ((∀ d ∈ cs, checkOnePath d = none) ∧
        ¬ resolved.Pairwise (fun a b => ¬ Overlaps a b))) := by
  have hiff : validateVaults cs resolved = .overlapError ↔
      ((∀ d ∈ cs, checkOnePath d = none) ∧
        ¬ resolved.Pairwise (fun a b => ¬ Overlaps a b)) := by
    unfold validateVaults
    cases hf : firstFailure cs with
    | some f =>
      simp only [hf]
      constructor
      · intro h; exact absurd h (by simp)
      · rintro ⟨hall, _⟩
        have : firstFailure cs = none := (firstFailure_eq_none_iff cs).mpr hall
        rw [hf] at this
        exact absurd this (by simp)
    | none =>
      simp only [hf]
      rw [← checkPathOverlap_eq_false_iff]
      constructor
      · intro h
        refine ⟨(firstFailure_eq_none_iff cs).mp hf, ?_⟩
        intro hfalse
        rw [hfalse] at h
        exact absurd h (by simp)
      · rintro ⟨_, hov⟩
        cases hx : checkPathOverlap resolved with
        | false => exact absurd hx hov
        | true => simp [hx]
  refine ⟨?_, ?_, ?_, fun h => (hiff.mp h).1, hiff⟩
  · intro h; simp [checkOnePath, h]
  · intro r h1 h2; simp [checkOnePath, h1, h2]
  · intro r h1 h2 h3; simp [checkOnePath, h1, h2, h3]

/-- C5 witness: a concrete run — a non-absolute path fails with the
format error even when later checks would also fail; and two vaults at
`/a/b` and `/a/b/c` (with all per-path checks passing) are rejected by
the overlap check. -/
theorem vaultValidation_order_and_overlap_witness :
    checkOnePath ⟨false, some "network drive", some "system directory", false⟩
      = some .notAbsolute ∧
    validateVaults [⟨true, none, none, true⟩, ⟨true, none, none, true⟩]
      [["a", "b"], ["a", "b", "c"]] = .overlapError := by
  constructor
  · exact (vaultValidation_order_and_overlap
      ⟨false, some "network drive", some "system directory", false⟩ [] []).1 rfl
  · exact (vaultValidation_order_and_overlap ⟨true, none, none, true⟩
      [⟨true, none, none, true⟩, ⟨true, none, none, true⟩]
      [["a", "b"], ["a", "b", "c"]]).2.2.2.2.mpr
      ⟨by intro d hd; simp only [List.mem_cons, List.not_mem_nil, or_false] at hd
          rcases hd with rfl | rfl <;> rfl,
       fun hpw => (List.pairwise_cons.mp hpw).1 ["a", "b", "c"]
         (List.mem_cons_self _ _) (Or.inl ⟨["c"], rfl⟩)⟩

/-! ## Vault name disambiguation (`main`, src lines 1156–1193)

After `sanitizeVaultName` produces a raw name for each vault, `main`
walks the vault list keeping a `usedNames` set: if the candidate name is
already used it tries `` `${name}-1` ``, `` `${name}-2` ``, … until the
candidate is unused, then records the winner.  The while loop is bounded
here by `(used.length + 1)` attempts, which the pigeonhole argument below
proves is always enough (the decimal suffixes are pairwise distinct). -/

def decodeDigits (l : List Char) : Nat :=
  l.foldl (fun a c => a * 10 + (c.toNat - 48)) 0

def reprDigits (n : Nat) : List Char :=
  if _h : n < 10 then [Nat.digitChar n]
  else reprDigits (n / 10) ++ [Nat.digitChar (n % 10)]
termination_by n
decreasing_by exact Nat.div_lt_self (by omega) (by omega)

theorem reprDigits_small (n : Nat) (h : n < 10) : reprDigits n = [Nat.digitChar n] := by
  rw [reprDigits]
  exact dif_pos h

theorem reprDigits_large (n : Nat) (h : ¬ n < 10) :
    reprDigits n = reprDigits (n / 10) ++ [Nat.digitChar (n % 10)] := by
  rw [reprDigits]
  exact dif_neg h

theorem toDigitsCore_eq_reprDigits :
    ∀ (fuel n : Nat) (l : List Char), n < fuel →
      Nat.toDigitsCore 10 fuel n l = reprDigits n ++ l := by
  intro fuel
  induction fuel with
  | zero => intro n l h; omega
  | succ f ih =>
    intro n l h
    by_cases h10 : n < 10
    · have hdiv : n / 10 = 0 := by omega
      have hmod : n % 10 = n := by omega
      simp [Nat.toDigitsCore, hdiv, hmod, reprDigits_small n h10]
    · have hdiv : ¬ n / 10 = 0 := by omega
      have hrec : n / 10 < f := by omega
      simp only [Nat.toDigitsCore, hdiv, if_false]
      rw [ih (n / 10) (Nat.digitChar (n % 10) :: l) hrec, reprDigits_large n h10,
        List.append_assoc, List.singleton_append]

theorem natRepr_eq_reprDigits (n : Nat) : Nat.repr n = (reprDigits n).asString := by
  show (Nat.toDigits 10 n).asString = (reprDigits n).asString
  rw [Nat.toDigits, toDigitsCore_eq_reprDigits (n + 1) n [] (Nat.lt_succ_self n),
    List.append_nil]

theorem digitChar_toNat_sub (m : Nat) (h : m < 10) : (Nat.digitChar m).toNat - 48 = m := by
  interval_cases m <;> rfl

theorem decodeDigits_append_singleton (l : List Char) (c : Char) :
    decodeDigits (l ++ [c]) = decodeDigits l * 10 + (c.toNat - 48) := by
  unfold decodeDigits
  rw [List.foldl_append]
  rfl

theorem decodeDigits_reprDigits (n : Nat) : decodeDigits (reprDigits n) = n := by
  induction n using Nat.strong_induction_on with
  | _ n ih =>
    by_cases h : n < 10
    · rw [reprDigits_small n h]
      show 0 * 10 + ((Nat.digitChar n).toNat - 48) = n
      rw [digitChar_toNat_sub n h]
      omega
    · have hrec : n / 10 < n := Nat.div_lt_self (by omega) (by omega)
      rw [reprDigits_large n h, decodeDigits_append_singleton, ih (n / 10) hrec,
        digitChar_toNat_sub (n % 10) (by omega)]
      omega

theorem natRepr_injective {m n : Nat} (h : Nat.repr m = Nat.repr n) : m = n := by
  rw [natRepr_eq_reprDigits, natRepr_eq_reprDigits] at h
  have hd : reprDigits m = reprDigits n := congrArg String.data h
  have := congrArg decodeDigits hd
  rwa [decodeDigits_reprDigits, decodeDigits_reprDigits] at this

/-- Translation of the candidate string `` `${vault.name}-${counter}` ``. -/
def suffixName (base : String) (k : Nat) : String :=
  base ++ "-" ++ Nat.repr k

theorem suffixName_injective (base : String) {j k : Nat}
    (h : suffixName base j = suffixName base k) : j = k := by
  have hd := congrArg String.data h
  simp only [suffixName, String.data_append, List.append_assoc] at hd
  have h2 := List.append_cancel_left hd
  have h3 : (Nat.repr j).data = (Nat.repr k).data := List.append_cancel_left h2
  exact natRepr_injective (String.ext h3)

theorem string_contains_iff_mem (l : List String) (s : String) :
    l.contains s = true ↔ s ∈ l := List.elem_iff

/-- Among the candidates `base-1`, …, `base-(used.length + 1)` at least
one is not in `used`: they are pairwise distinct and there are more of
them than `used` has entries. -/
theorem exists_fresh_suffix (used : List String) (base : String) :
    ∃ k, 1 ≤ k ∧ k ≤ used.length + 1 ∧ used.contains (suffixName base k) = false := by
  by_contra hcon
  push_neg at hcon
  have hmem : ∀ k, 1 ≤ k → k ≤ used.length + 1 → suffixName base k ∈ used := by
    intro k h1 h2
    have hne := hcon k h1 h2
    have hc : used.contains (suffixName base k) = true := by
      cases hx : used.contains (suffixName base k) with
      | false => exact absurd hx hne
      | true => rfl
    exact (string_contains_iff_mem used _).mp hc
  have hnodup : ((List.range (used.length + 1)).map
      (fun i => suffixName base (i + 1))).Nodup := by
    refine List.Nodup.map ?_ (List.nodup_range _)
    intro a b hab
    have := suffixName_injective base hab
    omega
  have hsub : ((List.range (used.length + 1)).map
      (fun i => suffixName base (i + 1))) ⊆ used := by
    intro x hx
    simp only [List.mem_map, List.mem_range] at hx
    obtain ⟨i, hi, rfl⟩ := hx
    exact hmem (i + 1) (by omega) (by omega)
  have hlen := (List.Nodup.subperm hnodup hsub).length_le
  simp only [List.length_map, List.length_range] at hlen
  omega

/-- Translation of the disambiguation while loop: starting from counter
`k`, return the first candidate `` `${base}-${k}` `` that is not yet
used.  The fuel argument bounds the number of attempts. -/
def findSuffix (used : List String) (base : String) : Nat → Nat → String
  | 0, k => suffixName base k
  | fuel + 1, k =>
    if used.contains (suffixName base k) then findSuffix used base fuel (k + 1)
    else suffixName base k

/-- Translation of the per-vault disambiguation step (src lines
1174–1188): keep the bare name when unused, otherwise run the while
loop from counter 1. -/
def uniqueName (used : List String) (base : String) : String :=
  if used.contains base then findSuffix used base (used.length + 1) 1 else base

/-- Translation of the `vaults.forEach` accumulation over `usedNames`. -/
def assignNames : List String → List String → List String
  | _, [] => []
  | used, n :: rest => uniqueName used n :: assignNames (uniqueName used n :: used) rest

def disambiguateVaultNames (names : List String) : List String :=
  assignNames [] names

theorem findSuffix_spec (used : List String) (base : String) :
    ∀ (fuel k0 : Nat),
      (∃ j, k0 ≤ j ∧ j < k0 + fuel ∧ used.contains (suffixName base j) = false) →
      ∃ m, k0 ≤ m ∧ findSuffix used base fuel k0 = suffixName base m ∧
        used.contains (suffixName base m) = false ∧
        ∀ j, k0 ≤ j → j < m → used.contains (suffixName base j) = true := by
  intro fuel
  induction fuel with
  | zero =>
    rintro k0 ⟨j, h1, h2, _⟩
    omega
  | succ f ih =>
    rintro k0 ⟨j, h1, h2, hj⟩
    have hstep : findSuffix used base (f + 1) k0
        = if used.contains (suffixName base k0) then findSuffix used base f (k0 + 1)
          else suffixName base k0 := rfl
    cases hk : used.contains (suffixName base k0) with
    | false =>
      refine ⟨k0, Nat.le_refl _, ?_, hk,
        fun i hi1 hi2 => absurd (Nat.lt_of_le_of_lt hi1 hi2) (Nat.lt_irrefl _)⟩
      rw [hstep, hk]
      simp
    | true =>
      have hjk : j ≠ k0 := by
        intro e
        rw [e, hk] at hj
        exact absurd hj (by decide)
      obtain ⟨m, hm1, hm2, hm3, hm4⟩ := ih (k0 + 1) ⟨j, by omega, by omega, hj⟩
      refine ⟨m, by omega, ?_, hm3, ?_⟩
      · rw [hstep, hk]
        simpa using hm2
      · intro i hi1 hi2
        rcases Nat.eq_or_lt_of_le hi1 with he | hlt
        · rw [← he]; exact hk
        · exact hm4 i hlt hi2

theorem uniqueName_fresh (used : List String) (base : String) :
    uniqueName used base ∉ used := by
  cases hb : used.contains base with
  | false =>
    have hnb : base ∉ used := by
      intro hmem
      rw [(string_contains_iff_mem used base).mpr hmem] at hb
      exact absurd hb (by decide)
    rw [uniqueName, if_neg (by simp [hnb])]
    exact hnb
  | true =>
    rw [uniqueName, if_pos hb]
    obtain ⟨k, hk1, hk2, hk3⟩ := exists_fresh_suffix used base
    obtain ⟨m, _, hm2, hm3, _⟩ :=
      findSuffix_spec used base (used.length + 1) 1 ⟨k, hk1, by omega, hk3⟩
    rw [hm2]
    intro hmem
    rw [(string_contains_iff_mem used _).mpr hmem] at hm3
    exact absurd hm3 (by decide)

theorem assignNames_nodup :
    ∀ (names used : List String),
      (assignNames used names).Nodup ∧ ∀ u ∈ assignNames used names, u ∉ used := by
  intro names
  induction names with
  | nil => intro used; simp [assignNames]
  | cons n rest ih =>
    intro used
    obtain ⟨hnd, hmem⟩ := ih (uniqueName used n :: used)
    constructor
    · rw [assignNames]
      refine List.nodup_cons.mpr ⟨?_, hnd⟩
      intro hin
      exact hmem _ hin (List.mem_cons_self _ _)
    · intro u hu
      rw [assignNames] at hu
      rcases List.mem_cons.mp hu with he | hu'
      · rw [he]; exact uniqueName_fresh used n
      · intro huse
        exact hmem u hu' (List.mem_cons_of_mem _ huse)

/-- C9: disambiguation is deterministic (a pure function of the arrival
order); a vault whose sanitized name is not yet taken keeps the bare
name; a vault whose name is taken receives `base-k` for the smallest
counter `k ≥ 1` whose candidate is unused (candidates are probed in
order `-1`, `-2`, …); and the resulting name list never contains a
duplicate. -/
theorem vaultName_disambiguation (used : List String) (base : String)
    (names : List String) :
    (used.contains base = false → uniqueName used base = base) ∧
    (used.contains base = true →
      ∃ k, 1 ≤ k ∧ uniqueName used base = suffixName base k ∧
        used.contains (suffixName base k) = false ∧
        ∀ j, 1 ≤ j → j < k → used.contains (suffixName base j) = true) ∧
    (disambiguateVaultNames names).Nodup := by
  refine ⟨?_, ?_, (assignNames_nodup names []).1⟩
  · intro h
    have hnb : base ∉ used := by
      intro hmem
      rw [(string_contains_iff_mem used base).mpr hmem] at h
      exact absurd h (by decide)
    rw [uniqueName, if_neg (by simp [hnb])]
  · intro h
    rw [uniqueName, if_pos h]
    obtain ⟨k, hk1, hk2, hk3⟩ := exists_fresh_suffix used base
    obtain ⟨m, hm1, hm2, hm3, hm4⟩ :=
      findSuffix_spec used base (used.length + 1) 1 ⟨k, hk1, by omega, hk3⟩
    exact ⟨m, hm1, hm2, hm3, fun j hj1 hj2 => hm4 j hj1 hj2⟩

/-- C9 witness: with an empty used set the bare name is kept, and the
full pipeline resolves the duplicate list deterministically. -/
theorem vaultName_disambiguation_witness :
    uniqueName [] "work" = "work" ∧
    (disambiguateVaultNames ["work", "work", "work"]).Nodup :=
  ⟨(vaultName_disambiguation [] "work" []).1 rfl,
    (vaultName_disambiguation [] "x" ["work", "work", "work"]).2.2⟩

theorem disambiguate_concrete_run :
    disambiguateVaultNames ["work", "work", "work"] = ["work", "work-1", "work-2"] := by
  rfl
